import Mathlib

/-!
Shallow embedding of `influence_maximization.cpp`.

Modelling conventions:
* C++ `int` node identifiers are modelled as `ℤ` (no claim involves overflow).
* A C++ `std::map<int, vector<int>>` (a cascade) is an association list
  `List (ℤ × List ℤ)`; lookup takes the first matching key, which agrees with
  map semantics since keys are unique in every map the program builds.
  `operator[]` on a missing key inserts an empty entry; the position of the
  inserted entry is immaterial to lookups, so it is appended at the end.
* A C++ `std::set<int>` is a strictly ascending duplicate-free list, which is
  exactly its iteration order; `setInsert` models `std::set::insert`.
* A C++ `double` is modelled by `FP`: either an exact rational value or NaN.
  All arithmetic performed by the program on the values the claims speak about
  is exact, and NaN arises only from the division `0.0 / 0`.
* The `while` loop of the breadth-first search is written with explicit fuel;
  `bfsFuel` is an a-priori bound on the number of iterations, proved
  sufficient below (`bfsLoop_correct`).
-/

namespace InflMax

/-- A cascade: the C++ `map<int, vector<int>>` as an association list. -/
abbrev Cascade := List (ℤ × List ℤ)

/-- Read-only lookup of key `u` in the map: the first entry with key `u`. -/
def lookupA (A : Cascade) (u : ℤ) : Option (List ℤ) :=
  (A.find? (fun p => p.1 == u)).map Prod.snd

/-- The adjacency list of `u`; `[]` when `u` is not a key (the value C++
`operator[]` yields for a missing key). -/
def adjList (A : Cascade) (u : ℤ) : List ℤ :=
  (lookupA A u).getD []

/-- C++ `A[u]`: returns the stored vector together with the map after the
access, which has gained the entry `(u, [])` when `u` was absent
(`std::map::operator[]` inserts a default value). -/
def mapIndex (A : Cascade) (u : ℤ) : List ℤ × Cascade :=
  match lookupA A u with
  | some vs => (vs, A)
  | none => ([], A ++ [(u, [])])

/-- `std::set<int>::insert` on the sorted duplicate-free list model. -/
def setInsert (x : ℤ) : List ℤ → List ℤ
  | [] => [x]
  | y :: ys => if x < y then x :: y :: ys else if x = y then y :: ys else y :: setInsert x ys

/-- The inner `for (int v : A[u])` loop of the BFS in `reachable_from`:
scan the adjacency list `vs`, enqueueing, marking and counting every node not
yet explored.  State: (queue, explored, count). -/
def processNeighbors : List ℤ → List ℤ → Finset ℤ → ℕ → List ℤ × Finset ℤ × ℕ
  | [], Q, E, r => (Q, E, r)
  | v :: vs, Q, E, r =>
    if v ∈ E then processNeighbors vs Q E r
    else processNeighbors vs (Q ++ [v]) (insert v E) (r + 1)

/-- The outer `while (!Q.empty())` loop of `reachable_from`, with explicit
fuel.  Returns the reachable count and the cascade map after the `A[u]`
accesses performed by the loop. -/
def bfsLoop : ℕ → Cascade → List ℤ → Finset ℤ → ℕ → ℕ × Cascade
  | 0, A, _, _, r => (r, A)
  | fuel + 1, A, Q, E, r =>
    match Q with
    | [] => (r, A)
    | u :: Q' =>
      let p := mapIndex A u
      let t := processNeighbors p.1 Q' E r
      bfsLoop fuel p.2 t.1 t.2.1 t.2.2

/-- Total length of all adjacency lists stored in `A`. -/
def totalAdj (A : Cascade) : ℕ :=
  (A.map (fun p => p.2.length)).sum

/-- Fuel that always suffices for the BFS: every node is enqueued at most
once, so the loop runs at most `|S|` + (total adjacency length) times. -/
def bfsFuel (A : Cascade) (S : List ℤ) : ℕ :=
  S.length + totalAdj A + 1

/-- `reachable_from(A, S)`: multi-source BFS.  The seed loop makes the count
start at `|S|`, the queue start as the seeds in iteration order and all seeds
marked explored.  Returns (count, map after the loop's `A[u]` insertions). -/
def reachable_from (A : Cascade) (S : List ℤ) : ℕ × Cascade :=
  bfsLoop (bfsFuel A S) A S S.toFinset S.length

/-- IEEE-754 double as this program uses it: an exactly-represented rational
or NaN.  NaN arises in the program only from `0.0 / 0`. -/
inductive FP where
  | nan : FP
  | val : ℚ → FP
deriving DecidableEq

/-- C++ `-` on doubles: NaN absorbs. -/
def FP.sub : FP → FP → FP
  | FP.val a, FP.val b => FP.val (a - b)
  | _, _ => FP.nan

/-- C++ `>` on doubles: false whenever an operand is NaN. -/
def FP.gtb : FP → FP → Bool
  | FP.val a, FP.val b => decide (b < a)
  | _, _ => false

/-- C++ `<=` on doubles (used only to state monotonicity claims): false
whenever an operand is NaN. -/
def FP.leb : FP → FP → Bool
  | FP.val a, FP.val b => decide (a ≤ b)
  | _, _ => false

/-- The `for (map A : cascades)` loop of `calculate_influence`: each stored
cascade is copied BY VALUE, `reachable_from` runs on (and mutates) the copy,
and the count is accumulated; the mutated copy is then discarded.  Returns
(sum of counts, the stored collection after the loop). -/
def calc_loop : List Cascade → List ℤ → ℚ × List Cascade
  | [], _ => (0, [])
  | A :: rest, S =>
    let res := reachable_from A S
    let t := calc_loop rest S
    ((res.1 : ℚ) + t.1, A :: t.2)

/-- `calculate_influence(cascades, S)`: average the per-cascade reachable
counts.  The division is unguarded in the source; on an empty collection the
sum is `0.0` and IEEE `0.0 / 0` is NaN. -/
def calculate_influence (cascades : List Cascade) (S : List ℤ) : FP :=
  if cascades.length = 0 then FP.nan
  else FP.val ((calc_loop cascades S).1 / cascades.length)

/-- The rational value of the average when the collection is non-empty
(equals `0` on the empty collection; used on the specification side). -/
def influenceQ (cascades : List Cascade) (S : List ℤ) : ℚ :=
  (calc_loop cascades S).1 / cascades.length

/-- The body of the inner `for (int u : V)` scan of one greedy round: a node
`u ∉ S` updates the state `(max_delta, max_influence, max_delta_node)` when
its `delta = influence_T - previous_influence` strictly exceeds `max_delta`. -/
def roundStep (cascades : List Cascade) (S : List ℤ) (prev : FP)
    (acc : FP × FP × ℤ) (u : ℤ) : FP × FP × ℤ :=
  if u ∈ S then acc
  else
    let influence_T := calculate_influence cascades (setInsert u S)
    let delta := FP.sub influence_T prev
    if FP.gtb delta acc.1 then (delta, influence_T, u) else acc

/-- One round of the greedy loop in `main`: the inner scan over the whole
vertex universe, with state initialized to `(-1.0, -1.0, -1)`. -/
def greedy_round (cascades : List Cascade) (Vl : List ℤ) (S : List ℤ) (prev : FP) :
    FP × FP × ℤ :=
  Vl.foldl (roundStep cascades S prev) (FP.val (-1), FP.val (-1), -1)

/-- State `(S, previous_influence)` after `k` rounds of the greedy `for`
loop in `main`; round `k+1` inserts `max_delta_node` into `S` and sets
`previous_influence` to `max_influence`. -/
def greedy_iter (cascades : List Cascade) (Vl : List ℤ) : ℕ → List ℤ × FP
  | 0 => ([], FP.val 0)
  | k + 1 =>
    let st := greedy_iter cascades Vl k
    let b := greedy_round cascades Vl st.1 st.2
    (setInsert b.2.2 st.1, b.2.1)

/-- The greedy selector of `main`: `K` rounds over the vertex universe,
iterated in its `std::set` (ascending) order `Vl`. -/
def select_seeds (cascades : List Cascade) (Vl : List ℤ) (K : ℕ) : List ℤ × FP :=
  greedy_iter cascades Vl K

/-- One directed edge step of cascade `A`. -/
def edgeStep (A : Cascade) (u v : ℤ) : Prop :=
  v ∈ adjList A u

/-- The set of nodes reachable from seed set `S` by following directed edges
of `A` (seeds included): the mathematical specification of the BFS. -/
def reachSet (A : Cascade) (S : List ℤ) : Set ℤ :=
  {x | ∃ s ∈ S, Relation.ReflTransGen (edgeStep A) s x}

/-- All edge targets stored in `A`, as a finite set. -/
def targets (A : Cascade) : Finset ℤ :=
  ((A.map Prod.snd).flatten).toFinset

/-! ### Basic lemmas about the map model -/

theorem mapIndex_fst (A : Cascade) (u : ℤ) : (mapIndex A u).1 = adjList A u := by
  unfold mapIndex adjList
  cases h : lookupA A u <;> simp [h]

theorem lookupA_append (A B : Cascade) (u : ℤ) :
    lookupA (A ++ B) u = (lookupA A u).or (lookupA B u) := by
  unfold lookupA
  rw [List.find?_append]
  cases h : A.find? (fun p => p.1 == u) <;> simp [h, Option.or]

theorem adjList_mapIndex (A : Cascade) (u w : ℤ) :
    adjList (mapIndex A u).2 w = adjList A w := by
  unfold mapIndex
  cases h : lookupA A u with
  | some vs => simp
  | none =>
    simp only
    unfold adjList
    rw [lookupA_append]
    by_cases hw : w = u
    · subst hw
      rw [h]
      simp [lookupA]
    · have hb : (((u, ([] : List ℤ)).1) == w) = false := by
        simp only [beq_eq_false_iff_ne]
        exact fun hc => hw hc.symm
      have hnone : lookupA [(u, [])] w = none := by
        unfold lookupA
        simp [List.find?, hb]
      rw [hnone]
      cases lookupA A w <;> simp [Option.or]

theorem mapIndex_snd_append (A : Cascade) (u : ℤ) :
    ∃ ex : Cascade, (mapIndex A u).2 = A ++ ex ∧ ∀ p ∈ ex, p.2 = ([] : List ℤ) := by
  unfold mapIndex
  cases h : lookupA A u with
  | some vs => exact ⟨[], by simp⟩
  | none => exact ⟨[(u, [])], by simp⟩

theorem adjList_subset_targets (A : Cascade) (u v : ℤ) (h : v ∈ adjList A u) :
    v ∈ targets A := by
  unfold adjList at h
  cases hl : lookupA A u with
  | none => rw [hl] at h; simp at h
  | some vs =>
    rw [hl] at h
    simp only [Option.getD_some] at h
    unfold lookupA at hl
    cases hf : A.find? (fun p => p.1 == u) with
    | none => rw [hf] at hl; simp at hl
    | some p =>
      rw [hf] at hl
      have hvs : p.2 = vs := by simpa using hl
      have hmem : p ∈ A := List.mem_of_find?_eq_some hf
      unfold targets
      rw [List.mem_toFinset, List.mem_flatten]
      exact ⟨p.2, List.mem_map_of_mem Prod.snd hmem, hvs ▸ h⟩

/-! ### Specification of the BFS inner loop -/

/-- What one pass of the inner neighbor loop guarantees, relative to the
incoming queue `Q`, explored set `E` and a finite universe bound `U`. -/
structure PNOut (U : Finset ℤ) (vs Q : List ℤ) (E : Finset ℤ)
    (t : List ℤ × Finset ℤ × ℕ) : Prop where
  nodupQ : t.1.Nodup
  q_sub_e : ∀ x ∈ t.1, x ∈ t.2.1
  count_eq : t.2.2 = t.2.1.card
  e_mono : E ⊆ t.2.1
  vs_sub : ∀ v ∈ vs, v ∈ t.2.1
  e_from : ∀ x ∈ t.2.1, x ∈ E ∨ x ∈ vs
  q_from : ∀ x ∈ t.1, x ∈ Q ∨ x ∈ vs
  e_bound : t.2.1 ⊆ U
  size_eq : t.1.length + (U \ t.2.1).card = Q.length + (U \ E).card
  q_mono : ∀ x ∈ Q, x ∈ t.1
  e_split : ∀ x ∈ t.2.1, x ∈ E ∨ x ∈ t.1

theorem processNeighbors_spec (U : Finset ℤ) :
    ∀ (vs Q : List ℤ) (E : Finset ℤ) (r : ℕ),
      Q.Nodup → (∀ x ∈ Q, x ∈ E) → r = E.card → E ⊆ U → (∀ v ∈ vs, v ∈ U) →
      PNOut U vs Q E (processNeighbors vs Q E r) := by
  intro vs
  induction vs with
  | nil =>
    intro Q E r hnd hqe hr hEU _
    refine ⟨hnd, hqe, ?_, fun x hx => hx, by simp, fun x hx => Or.inl hx,
      fun x hx => Or.inl hx, hEU, rfl, fun x hx => hx, fun x hx => Or.inl hx⟩
    simpa [processNeighbors] using hr
  | cons v vs ih =>
    intro Q E r hnd hqe hr hEU hvsU
    by_cases hv : v ∈ E
    · have spec := ih Q E r hnd hqe hr hEU (fun w hw => hvsU w (by simp [hw]))
      rw [processNeighbors, if_pos hv]
      exact ⟨spec.nodupQ, spec.q_sub_e, spec.count_eq, spec.e_mono,
        fun w hw => by
          rcases List.mem_cons.mp hw with h | h
          · exact h ▸ spec.e_mono hv
          · exact spec.vs_sub w h,
        fun x hx => (spec.e_from x hx).imp id (fun h => by simp [h]),
        fun x hx => (spec.q_from x hx).imp id (fun h => by simp [h]),
        spec.e_bound, spec.size_eq, spec.q_mono, spec.e_split⟩
    · have hvU : v ∈ U := hvsU v (by simp)
      have hnd' : (Q ++ [v]).Nodup := by
        rw [List.nodup_append]
        exact ⟨hnd, List.nodup_singleton v,
          by
            intro x hx hx'
            rcases List.mem_singleton.mp hx' with rfl
            exact hv (hqe x hx)⟩
      have hqe' : ∀ x ∈ Q ++ [v], x ∈ insert v E := by
        intro x hx
        rcases List.mem_append.mp hx with h | h
        · exact Finset.mem_insert_of_mem (hqe x h)
        · rcases List.mem_singleton.mp h with rfl
          exact Finset.mem_insert_self _ _
      have hr' : r + 1 = (insert v E).card := by
        rw [Finset.card_insert_of_not_mem hv, hr]
      have hEU' : insert v E ⊆ U := Finset.insert_subset hvU hEU
      have spec := ih (Q ++ [v]) (insert v E) (r + 1) hnd' hqe' hr' hEU'
        (fun w hw => hvsU w (by simp [hw]))
      rw [processNeighbors, if_neg hv]
      refine ⟨spec.nodupQ, spec.q_sub_e, spec.count_eq,
        fun x hx => spec.e_mono (Finset.mem_insert_of_mem hx),
        fun w hw => by
          rcases List.mem_cons.mp hw with h | h
          · exact h ▸ spec.e_mono (Finset.mem_insert_self v E)
          · exact spec.vs_sub w h,
        fun x hx => by
          rcases spec.e_from x hx with h | h
          · rcases Finset.mem_insert.mp h with h' | h'
            · exact Or.inr (by simp [h'])
            · exact Or.inl h'
          · exact Or.inr (by simp [h]),
        fun x hx => by
          rcases spec.q_from x hx with h | h
          · rcases List.mem_append.mp h with h' | h'
            · exact Or.inl h'
            · rcases List.mem_singleton.mp h' with rfl
              exact Or.inr (by simp)
          · exact Or.inr (by simp [h]),
        spec.e_bound, ?_, fun x hx => spec.q_mono x (by simp [hx]),
        fun x hx => by
          rcases spec.e_split x hx with h | h
          · rcases Finset.mem_insert.mp h with h' | h'
            · exact Or.inr (spec.q_mono x (by simp [h']))
            · exact Or.inl h'
          · exact Or.inr h⟩
      have hvUE : v ∈ U \ E := Finset.mem_sdiff.mpr ⟨hvU, hv⟩
      have hcard : (U \ insert v E).card = (U \ E).card - 1 := by
        rw [Finset.sdiff_insert, Finset.card_erase_of_mem hvUE]
      have hpos : 1 ≤ (U \ E).card := Finset.card_pos.mpr ⟨v, hvUE⟩
      have := spec.size_eq
      rw [hcard] at this
      simp only [List.length_append, List.length_singleton] at this
      omega

/-! ### The reachable set and correctness of the BFS -/

theorem reachSet_seeds (A : Cascade) (S : List ℤ) (s : ℤ) (hs : s ∈ S) :
    s ∈ reachSet A S :=
  ⟨s, hs, Relation.ReflTransGen.refl⟩

theorem reachSet_step_closed (A : Cascade) (S : List ℤ) (x y : ℤ)
    (hx : x ∈ reachSet A S) (hxy : edgeStep A x y) : y ∈ reachSet A S := by
  obtain ⟨s, hs, hr⟩ := hx
  exact ⟨s, hs, hr.tail hxy⟩

theorem reachSet_subset (A : Cascade) (S : List ℤ) :
    reachSet A S ⊆ ↑(S.toFinset ∪ targets A) := by
  rintro x ⟨s, hs, hr⟩
  induction hr with
  | refl =>
    simp only [Finset.coe_union, Set.mem_union, Finset.mem_coe, List.mem_toFinset]
    exact Or.inl hs
  | tail hab hbc ih =>
    simp only [Finset.coe_union, Set.mem_union, Finset.mem_coe]
    exact Or.inr (adjList_subset_targets A _ _ hbc)

theorem reachSet_finite (A : Cascade) (S : List ℤ) : (reachSet A S).Finite :=
  Set.Finite.subset (S.toFinset ∪ targets A).finite_toSet (reachSet_subset A S)

theorem reachSet_mono (A : Cascade) (S T : List ℤ) (h : ∀ x ∈ S, x ∈ T) :
    reachSet A S ⊆ reachSet A T := by
  rintro x ⟨s, hs, hr⟩
  exact ⟨s, h s hs, hr⟩

theorem coe_eq_reachSet (A : Cascade) (S : List ℤ) (E : Finset ℤ)
    (h1 : ↑E ⊆ reachSet A S) (h2 : ∀ u ∈ E, ∀ v ∈ adjList A u, v ∈ E)
    (h3 : ∀ s ∈ S, s ∈ E) : ↑E = reachSet A S := by
  apply Set.Subset.antisymm h1
  rintro x ⟨s, hs, hr⟩
  induction hr with
  | refl => exact Finset.mem_coe.mpr (h3 s hs)
  | tail hab hbc ih => exact Finset.mem_coe.mpr (h2 _ (Finset.mem_coe.mp ih) _ hbc)

/-- The invariant of the BFS `while` loop, relative to the original cascade
`A₀` and seed list `S`. -/
structure BfsInv (A₀ : Cascade) (S : List ℤ) (A : Cascade) (Q : List ℤ)
    (E : Finset ℤ) (r : ℕ) : Prop where
  adj_eq : ∀ w, adjList A w = adjList A₀ w
  nodupQ : Q.Nodup
  q_sub_e : ∀ x ∈ Q, x ∈ E
  count_eq : r = E.card
  e_reach : ↑E ⊆ reachSet A₀ S
  closed : ∀ u ∈ E, u ∉ Q → ∀ v ∈ adjList A₀ u, v ∈ E
  seeds : ∀ s ∈ S, s ∈ E

theorem bfsLoop_nil (fuel : ℕ) (A : Cascade) (E : Finset ℤ) (r : ℕ) :
    bfsLoop fuel A [] E r = (r, A) := by
  cases fuel <;> rfl

theorem bfsLoop_correct (A₀ : Cascade) (S : List ℤ) :
    ∀ (fuel : ℕ) (A : Cascade) (Q : List ℤ) (E : Finset ℤ) (r : ℕ),
      BfsInv A₀ S A Q E r → E ⊆ S.toFinset ∪ targets A₀ →
      Q.length + ((S.toFinset ∪ targets A₀) \ E).card ≤ fuel →
      (bfsLoop fuel A Q E r).1 = (reachSet A₀ S).ncard := by
  intro fuel
  induction fuel with
  | zero =>
    intro A Q E r inv hEU hfuel
    have hQ : Q = [] := List.length_eq_zero.mp (by omega)
    subst hQ
    rw [bfsLoop_nil]
    have hE : ↑E = reachSet A₀ S := coe_eq_reachSet A₀ S E inv.e_reach
      (fun u hu v hv => inv.closed u hu (by simp) v hv) inv.seeds
    rw [inv.count_eq, ← Set.ncard_coe_Finset, hE]
  | succ fuel ih =>
    intro A Q E r inv hEU hfuel
    cases Q with
    | nil =>
      rw [bfsLoop_nil]
      have hE : ↑E = reachSet A₀ S := coe_eq_reachSet A₀ S E inv.e_reach
        (fun u hu v hv => inv.closed u hu (by simp) v hv) inv.seeds
      rw [inv.count_eq, ← Set.ncard_coe_Finset, hE]
    | cons u Q' =>
      have hu : u ∈ E := inv.q_sub_e u (by simp)
      have hndQ' : Q'.Nodup := (List.nodup_cons.mp inv.nodupQ).2
      have huQ' : u ∉ Q' := (List.nodup_cons.mp inv.nodupQ).1
      have hp1 : (mapIndex A u).1 = adjList A₀ u := by
        rw [mapIndex_fst]; exact inv.adj_eq u
      have spec := processNeighbors_spec (S.toFinset ∪ targets A₀) (mapIndex A u).1
        Q' E r hndQ' (fun x hx => inv.q_sub_e x (by simp [hx])) inv.count_eq hEU
        (fun v hv => by
          rw [hp1] at hv
          exact Finset.mem_union_right _ (adjList_subset_targets A₀ u v hv))
      simp only [bfsLoop]
      apply ih
      · refine ⟨fun w => (adjList_mapIndex A u w).trans (inv.adj_eq w),
          spec.nodupQ, spec.q_sub_e, spec.count_eq, ?_, ?_,
          fun s hs => spec.e_mono (inv.seeds s hs)⟩
        · intro x hx
          rcases spec.e_from x (Finset.mem_coe.mp hx) with h | h
          · exact inv.e_reach (Finset.mem_coe.mpr h)
          · rw [hp1] at h
            exact reachSet_step_closed A₀ S u x (inv.e_reach (Finset.mem_coe.mpr hu)) h
        · intro w hw hwQ v hv
          rcases spec.e_split w hw with hwE | hwT1
          · by_cases hwu : w = u
            · subst hwu
              rw [← hp1] at hv
              exact spec.vs_sub v hv
            · have hwQ' : w ∉ Q' := fun hc => hwQ (spec.q_mono w hc)
              have hwnQ : w ∉ u :: Q' := by
                intro hc
                rcases List.mem_cons.mp hc with h | h
                · exact hwu h
                · exact hwQ' h
              exact spec.e_mono (inv.closed w hwE hwnQ v hv)
          · exact absurd hwT1 hwQ
      · exact spec.e_bound
      · have hsz := spec.size_eq
        simp only [List.length_cons] at hfuel
        omega

/-! ### Consequences for `reachable_from` -/

/-- The initial BFS state set up by the seed loop satisfies the invariant. -/
theorem bfsInv_init (A : Cascade) (S : List ℤ) (hnd : S.Nodup) :
    BfsInv A S A S S.toFinset S.length :=
  ⟨fun _ => rfl, hnd, fun _ hx => List.mem_toFinset.mpr hx,
    (List.toFinset_card_of_nodup hnd).symm,
    fun x hx => reachSet_seeds A S x (List.mem_toFinset.mp (Finset.mem_coe.mp hx)),
    fun _ hu hnu _ _ => absurd (List.mem_toFinset.mp hu) hnu,
    fun _ hs => List.mem_toFinset.mpr hs⟩

/-- The statically chosen fuel covers the worst-case number of iterations. -/
theorem bfsFuel_sufficient (A : Cascade) (S : List ℤ) :
    S.length + ((S.toFinset ∪ targets A) \ S.toFinset).card ≤ bfsFuel A S := by
  unfold bfsFuel
  rw [Finset.union_sdiff_left]
  have h1 : (targets A \ S.toFinset).card ≤ (targets A).card :=
    Finset.card_le_card (Finset.sdiff_subset)
  have h2 : (targets A).card ≤ totalAdj A := by
    unfold targets totalAdj
    calc ((A.map Prod.snd).flatten).toFinset.card
        ≤ ((A.map Prod.snd).flatten).length := List.toFinset_card_le _
      _ = ((A.map Prod.snd).map List.length).sum := List.length_flatten _
      _ = (A.map (fun p => p.2.length)).sum := by rw [List.map_map]; rfl
  omega

/-- The count computed by the BFS is the size of the reachable set. -/
theorem reachable_count (A : Cascade) (S : List ℤ) (hnd : S.Nodup) :
    (reachable_from A S).1 = (reachSet A S).ncard :=
  bfsLoop_correct A S (bfsFuel A S) A S S.toFinset S.length
    (bfsInv_init A S hnd) Finset.subset_union_left (bfsFuel_sufficient A S)

/-- Whatever the BFS loop does to the map, it only appends empty adjacency
entries (the `operator[]` insertions for visited nodes lacking a key). -/
theorem bfsLoop_snd_append :
    ∀ (fuel : ℕ) (A : Cascade) (Q : List ℤ) (E : Finset ℤ) (r : ℕ),
      ∃ ex : Cascade, (bfsLoop fuel A Q E r).2 = A ++ ex ∧
        ∀ p ∈ ex, p.2 = ([] : List ℤ) := by
  intro fuel
  induction fuel with
  | zero => exact fun A Q E r => ⟨[], by simp [bfsLoop], by simp⟩
  | succ fuel ih =>
    intro A Q E r
    cases Q with
    | nil => exact ⟨[], by simp [bfsLoop_nil], by simp⟩
    | cons u Q' =>
      simp only [bfsLoop]
      obtain ⟨ex1, h1, h1e⟩ := mapIndex_snd_append A u
      obtain ⟨ex2, h2, h2e⟩ := ih (mapIndex A u).2
        (processNeighbors (mapIndex A u).1 Q' E r).1
        (processNeighbors (mapIndex A u).1 Q' E r).2.1
        (processNeighbors (mapIndex A u).1 Q' E r).2.2
      refine ⟨ex1 ++ ex2, ?_, ?_⟩
      · rw [h2, h1, List.append_assoc]
      · intro p hp
        rcases List.mem_append.mp hp with h | h
        · exact h1e p h
        · exact h2e p h

theorem reachable_from_snd_append (A : Cascade) (S : List ℤ) :
    ∃ ex : Cascade, (reachable_from A S).2 = A ++ ex ∧
      ∀ p ∈ ex, p.2 = ([] : List ℤ) :=
  bfsLoop_snd_append (bfsFuel A S) A S S.toFinset S.length

/-- The empty seed set reaches nothing and leaves the map untouched. -/
theorem reachable_from_nil (A : Cascade) : reachable_from A [] = (0, A) := by
  unfold reachable_from
  simp [bfsLoop_nil]

/-- A duplicate-free seed list is counted in full: the count is at least `|S|`. -/
theorem reachable_from_ge (A : Cascade) (S : List ℤ) (hnd : S.Nodup) :
    S.length ≤ (reachable_from A S).1 := by
  rw [reachable_count A S hnd]
  have h1 : (↑S.toFinset : Set ℤ) ⊆ reachSet A S := fun x hx =>
    reachSet_seeds A S x (List.mem_toFinset.mp (Finset.mem_coe.mp hx))
  have h2 := Set.ncard_le_ncard h1 (reachSet_finite A S)
  rw [Set.ncard_coe_Finset, List.toFinset_card_of_nodup hnd] at h2
  exact h2

/-- Monotonicity of the reachable count in the seed set. -/
theorem reachable_from_mono (A : Cascade) (S T : List ℤ) (hndS : S.Nodup)
    (hndT : T.Nodup) (hsub : ∀ x ∈ S, x ∈ T) :
    (reachable_from A S).1 ≤ (reachable_from A T).1 := by
  rw [reachable_count A S hndS, reachable_count A T hndT]
  exact Set.ncard_le_ncard (reachSet_mono A S T hsub) (reachSet_finite A T)

/-! ### The influence estimator -/

theorem calc_loop_fst (cascades : List Cascade) (S : List ℤ) :
    (calc_loop cascades S).1 =
      (cascades.map (fun A => ((reachable_from A S).1 : ℚ))).sum := by
  induction cascades with
  | nil => rfl
  | cons A rest ih => simp [calc_loop, ih]

theorem calc_loop_snd (cascades : List Cascade) (S : List ℤ) :
    (calc_loop cascades S).2 = cascades := by
  induction cascades with
  | nil => rfl
  | cons A rest ih => simp [calc_loop, ih]

theorem calculate_influence_val (cascades : List Cascade) (S : List ℤ)
    (h : cascades ≠ []) :
    calculate_influence cascades S = FP.val (influenceQ cascades S) := by
  unfold calculate_influence influenceQ
  rw [if_neg (by simpa using h)]

theorem calculate_influence_nil (S : List ℤ) :
    calculate_influence [] S = FP.nan := rfl

theorem influenceQ_nil_seed (cascades : List Cascade) :
    influenceQ cascades [] = 0 := by
  unfold influenceQ
  rw [calc_loop_fst]
  have : ∀ A ∈ cascades, ((reachable_from A ([] : List ℤ)).1 : ℚ) = 0 := by
    intro A _
    rw [reachable_from_nil]
    norm_num
  rw [List.map_congr_left (by intro A hA; exact this A hA)]
  simp

theorem influenceQ_mono (cascades : List Cascade) (S T : List ℤ) (hndS : S.Nodup)
    (hndT : T.Nodup) (hsub : ∀ x ∈ S, x ∈ T) :
    influenceQ cascades S ≤ influenceQ cascades T := by
  unfold influenceQ
  rw [calc_loop_fst, calc_loop_fst]
  apply div_le_div_of_nonneg_right _ (by positivity)
  apply List.sum_le_sum
  intro A _
  exact_mod_cast reachable_from_mono A S T hndS hndT hsub

theorem influenceQ_nonneg (cascades : List Cascade) (S : List ℤ) :
    0 ≤ influenceQ cascades S := by
  unfold influenceQ
  rw [calc_loop_fst]
  apply div_nonneg _ (by positivity)
  apply List.sum_nonneg
  intro q hq
  rw [List.mem_map] at hq
  obtain ⟨A, _, rfl⟩ := hq
  positivity

/-! ### Lemmas about the set model `setInsert` -/

theorem mem_setInsert (x u : ℤ) (S : List ℤ) :
    x ∈ setInsert u S ↔ x = u ∨ x ∈ S := by
  induction S with
  | nil => simp [setInsert]
  | cons y ys ih =>
    unfold setInsert
    by_cases h1 : u < y
    · rw [if_pos h1]
      simp [List.mem_cons]
    · by_cases h2 : u = y
      · rw [if_neg h1, if_pos h2]
        subst h2
        simp [List.mem_cons]
      · rw [if_neg h1, if_neg h2]
        simp only [List.mem_cons, ih]
        tauto

theorem setInsert_sorted (u : ℤ) (S : List ℤ) (h : List.Sorted (· < ·) S) :
    List.Sorted (· < ·) (setInsert u S) := by
  induction S with
  | nil => simp [setInsert]
  | cons y ys ih =>
    rw [List.sorted_cons] at h
    obtain ⟨hy, hys⟩ := h
    unfold setInsert
    by_cases h1 : u < y
    · rw [if_pos h1, List.sorted_cons]
      refine ⟨?_, List.sorted_cons.mpr ⟨hy, hys⟩⟩
      intro b hb
      rcases List.mem_cons.mp hb with rfl | hb'
      · exact h1
      · exact lt_trans h1 (hy b hb')
    · by_cases h2 : u = y
      · rw [if_neg h1, if_pos h2]
        exact List.sorted_cons.mpr ⟨hy, hys⟩
      · rw [if_neg h1, if_neg h2, List.sorted_cons]
        refine ⟨?_, ih hys⟩
        intro b hb
        rcases (mem_setInsert b u ys).mp hb with rfl | hb'
        · exact lt_of_le_of_ne (not_lt.mp h1) (Ne.symm h2)
        · exact hy b hb'

theorem setInsert_length_of_not_mem (u : ℤ) (S : List ℤ) (h : u ∉ S) :
    (setInsert u S).length = S.length + 1 := by
  induction S with
  | nil => rfl
  | cons y ys ih =>
    unfold setInsert
    by_cases h1 : u < y
    · rw [if_pos h1]; rfl
    · by_cases h2 : u = y
      · exact absurd (h2 ▸ List.mem_cons_self y ys) h
      · rw [if_neg h1, if_neg h2]
        simp only [List.length_cons]
        rw [ih (fun hc => h (List.mem_cons_of_mem y hc))]

theorem subset_setInsert (u : ℤ) (S : List ℤ) : ∀ x ∈ S, x ∈ setInsert u S :=
  fun x hx => (mem_setInsert x u S).mpr (Or.inr hx)

/-! ### The greedy round: characterization of the selected node -/

/-- The scan state when the best eligible node seen so far is `n` and the
running `previous_influence` equals the influence of `S`. -/
def roundState (cascades : List Cascade) (S : List ℤ) (n : ℤ) : FP × FP × ℤ :=
  (FP.val (influenceQ cascades (setInsert n S) - influenceQ cascades S),
   FP.val (influenceQ cascades (setInsert n S)), n)

theorem roundStep_mem (cascades : List Cascade) (S : List ℤ) (prev : FP)
    (acc : FP × FP × ℤ) (u : ℤ) (hu : u ∈ S) :
    roundStep cascades S prev acc u = acc := by
  unfold roundStep
  rw [if_pos hu]

theorem roundStep_state (cascades : List Cascade) (S : List ℤ) (n u : ℤ)
    (hcs : cascades ≠ []) (hu : u ∉ S) :
    roundStep cascades S (FP.val (influenceQ cascades S)) (roundState cascades S n) u =
      if influenceQ cascades (setInsert n S) < influenceQ cascades (setInsert u S)
      then roundState cascades S u else roundState cascades S n := by
  unfold roundStep roundState
  rw [if_neg hu, calculate_influence_val _ _ hcs]
  simp only [FP.sub, FP.gtb, decide_eq_true_eq, sub_lt_sub_iff_right]

theorem roundStep_init (cascades : List Cascade) (S : List ℤ) (u : ℤ)
    (hcs : cascades ≠ []) (hu : u ∉ S)
    (hm : influenceQ cascades S ≤ influenceQ cascades (setInsert u S)) :
    roundStep cascades S (FP.val (influenceQ cascades S))
      (FP.val (-1), FP.val (-1), -1) u = roundState cascades S u := by
  unfold roundStep roundState
  rw [if_neg hu, calculate_influence_val _ _ hcs]
  simp only [FP.sub, FP.gtb, decide_eq_true_eq]
  rw [if_pos (by linarith)]

theorem round_fold_from (cascades : List Cascade) (S : List ℤ) (hcs : cascades ≠ []) :
    ∀ (L : List ℤ), List.Sorted (· < ·) L → ∀ (n : ℤ), (∀ u ∈ L, n < u) → n ∉ S →
    ∃ m, List.foldl (roundStep cascades S (FP.val (influenceQ cascades S)))
        (roundState cascades S n) L = roundState cascades S m ∧
      m ∉ S ∧ (m = n ∨ m ∈ L) ∧
      influenceQ cascades (setInsert n S) ≤ influenceQ cascades (setInsert m S) ∧
      (m ≠ n → influenceQ cascades (setInsert n S) < influenceQ cascades (setInsert m S)) ∧
      (∀ u ∈ L, u ∉ S →
        influenceQ cascades (setInsert u S) ≤ influenceQ cascades (setInsert m S)) ∧
      (∀ u ∈ L, u ∉ S → u < m →
        influenceQ cascades (setInsert u S) < influenceQ cascades (setInsert m S)) := by
  intro L
  induction L with
  | nil =>
    intro _ n hnL hn
    exact ⟨n, rfl, hn, Or.inl rfl, le_refl _, fun h => absurd rfl h, by simp, by simp⟩
  | cons u L' ih =>
    intro hs n hnL hn
    rw [List.sorted_cons] at hs
    obtain ⟨hu_lt, hs'⟩ := hs
    rw [List.foldl_cons]
    by_cases huS : u ∈ S
    · rw [roundStep_mem _ _ _ _ _ huS]
      obtain ⟨m, h1, h2, h3, h4, h5, h6, h7⟩ :=
        ih hs' n (fun w hw => hnL w (List.mem_cons_of_mem u hw)) hn
      refine ⟨m, h1, h2, h3.imp id (List.mem_cons_of_mem u), h4, h5, ?_, ?_⟩
      · intro w hw hwS
        rcases List.mem_cons.mp hw with h | hw'
        · exact absurd (h ▸ huS) hwS
        · exact h6 w hw' hwS
      · intro w hw hwS hwm
        rcases List.mem_cons.mp hw with h | hw'
        · exact absurd (h ▸ huS) hwS
        · exact h7 w hw' hwS hwm
    · rw [roundStep_state _ _ _ _ hcs huS]
      by_cases hlt : influenceQ cascades (setInsert n S) <
          influenceQ cascades (setInsert u S)
      · rw [if_pos hlt]
        obtain ⟨m, h1, h2, h3, h4, h5, h6, h7⟩ := ih hs' u hu_lt huS
        refine ⟨m, h1, h2, ?_, le_trans (le_of_lt hlt) h4,
          fun _ => lt_of_lt_of_le hlt h4, ?_, ?_⟩
        · rcases h3 with h | h
          · exact Or.inr (h ▸ List.mem_cons_self u L')
          · exact Or.inr (List.mem_cons_of_mem u h)
        · intro w hw hwS
          rcases List.mem_cons.mp hw with h | hw'
          · exact h ▸ h4
          · exact h6 w hw' hwS
        · intro w hw hwS hwm
          rcases List.mem_cons.mp hw with h | hw'
          · subst h
            exact h5 (ne_of_gt hwm)
          · exact h7 w hw' hwS hwm
      · rw [if_neg hlt]
        have hun : influenceQ cascades (setInsert u S) ≤
            influenceQ cascades (setInsert n S) := not_lt.mp hlt
        obtain ⟨m, h1, h2, h3, h4, h5, h6, h7⟩ :=
          ih hs' n (fun w hw => hnL w (List.mem_cons_of_mem u hw)) hn
        refine ⟨m, h1, h2, h3.imp id (List.mem_cons_of_mem u), h4, h5, ?_, ?_⟩
        · intro w hw hwS
          rcases List.mem_cons.mp hw with h | hw'
          · exact h ▸ le_trans hun h4
          · exact h6 w hw' hwS
        · intro w hw hwS hwm
          rcases List.mem_cons.mp hw with h | hw'
          · subst h
            have hnu : n < w := hnL w (List.mem_cons_self w L')
            have hmn : m ≠ n := fun he => absurd (he ▸ hwm) (not_lt.mpr (le_of_lt hnu))
            exact lt_of_le_of_lt hun (h5 hmn)
          · exact h7 w hw' hwS hwm

theorem round_fold_init (cascades : List Cascade) (S : List ℤ) (hcs : cascades ≠ [])
    (hmono : ∀ u, u ∉ S →
      influenceQ cascades S ≤ influenceQ cascades (setInsert u S)) :
    ∀ (L : List ℤ), List.Sorted (· < ·) L → (∃ u ∈ L, u ∉ S) →
    ∃ m, List.foldl (roundStep cascades S (FP.val (influenceQ cascades S)))
        (FP.val (-1), FP.val (-1), -1) L = roundState cascades S m ∧
      m ∈ L ∧ m ∉ S ∧
      (∀ u ∈ L, u ∉ S →
        influenceQ cascades (setInsert u S) ≤ influenceQ cascades (setInsert m S)) ∧
      (∀ u ∈ L, u ∉ S → u < m →
        influenceQ cascades (setInsert u S) < influenceQ cascades (setInsert m S)) := by
  intro L
  induction L with
  | nil =>
    rintro _ ⟨u, hu, _⟩
    exact absurd hu (List.not_mem_nil u)
  | cons u L' ih =>
    intro hs helig
    rw [List.sorted_cons] at hs
    obtain ⟨hu_lt, hs'⟩ := hs
    rw [List.foldl_cons]
    by_cases huS : u ∈ S
    · rw [roundStep_mem _ _ _ _ _ huS]
      have helig' : ∃ w ∈ L', w ∉ S := by
        obtain ⟨w, hw, hwS⟩ := helig
        rcases List.mem_cons.mp hw with h | hw'
        · exact absurd (h ▸ huS) hwS
        · exact ⟨w, hw', hwS⟩
      obtain ⟨m, h1, h2, h3, h4, h5⟩ := ih hs' helig'
      refine ⟨m, h1, List.mem_cons_of_mem u h2, h3, ?_, ?_⟩
      · intro w hw hwS
        rcases List.mem_cons.mp hw with h | hw'
        · exact absurd (h ▸ huS) hwS
        · exact h4 w hw' hwS
      · intro w hw hwS hwm
        rcases List.mem_cons.mp hw with h | hw'
        · exact absurd (h ▸ huS) hwS
        · exact h5 w hw' hwS hwm
    · rw [roundStep_init _ _ _ hcs huS (hmono u huS)]
      obtain ⟨m, h1, h2, h3, h4, h5, h6, h7⟩ :=
        round_fold_from cascades S hcs L' hs' u hu_lt huS
      refine ⟨m, h1, ?_, h2, ?_, ?_⟩
      · rcases h3 with h | h
        · exact h ▸ List.mem_cons_self u L'
        · exact List.mem_cons_of_mem u h
      · intro w hw hwS
        rcases List.mem_cons.mp hw with h | hw'
        · exact h ▸ h4
        · exact h6 w hw' hwS
      · intro w hw hwS hwm
        rcases List.mem_cons.mp hw with h | hw'
        · subst h
          exact h5 (ne_of_gt hwm)
        · exact h7 w hw' hwS hwm

theorem greedy_round_char (cascades : List Cascade) (Vl S : List ℤ)
    (hcs : cascades ≠ []) (hVs : List.Sorted (· < ·) Vl)
    (hSs : List.Sorted (· < ·) S) (helig : ∃ u ∈ Vl, u ∉ S) :
    ∃ m, greedy_round cascades Vl S (FP.val (influenceQ cascades S)) =
        roundState cascades S m ∧
      m ∈ Vl ∧ m ∉ S ∧
      (∀ u ∈ Vl, u ∉ S →
        influenceQ cascades (setInsert u S) ≤ influenceQ cascades (setInsert m S)) ∧
      (∀ u ∈ Vl, u ∉ S → u < m →
        influenceQ cascades (setInsert u S) < influenceQ cascades (setInsert m S)) := by
  have hmono : ∀ u, u ∉ S →
      influenceQ cascades S ≤ influenceQ cascades (setInsert u S) := by
    intro u _
    exact influenceQ_mono cascades S (setInsert u S) hSs.nodup
      (setInsert_sorted u S hSs).nodup (subset_setInsert u S)
  exact round_fold_init cascades S hcs hmono Vl hVs helig

/-- Invariant of the greedy loop: after `k` complete rounds (`k` at most
`|V|`), the seed set is a sorted subset of the universe of size `k` and
`previous_influence` is exactly the influence of that set. -/
theorem greedy_iter_inv (cascades : List Cascade) (Vl : List ℤ)
    (hcs : cascades ≠ []) (hVs : List.Sorted (· < ·) Vl) :
    ∀ k, k ≤ Vl.length →
      List.Sorted (· < ·) (greedy_iter cascades Vl k).1 ∧
      (∀ x ∈ (greedy_iter cascades Vl k).1, x ∈ Vl) ∧
      (greedy_iter cascades Vl k).1.length = k ∧
      (greedy_iter cascades Vl k).2 =
        FP.val (influenceQ cascades (greedy_iter cascades Vl k).1) := by
  intro k
  induction k with
  | zero =>
    intro _
    refine ⟨List.sorted_nil, by simp [greedy_iter], by simp [greedy_iter], ?_⟩
    show FP.val 0 = FP.val (influenceQ cascades [])
    rw [influenceQ_nil_seed]
  | succ k ih =>
    intro hk1
    obtain ⟨hs, hsub, hlen, hprev⟩ := ih (Nat.le_of_succ_le hk1)
    have helig : ∃ u ∈ Vl, u ∉ (greedy_iter cascades Vl k).1 := by
      by_contra hc
      push_neg at hc
      have hndV : Vl.Nodup := hVs.nodup
      have h1 : Vl.toFinset ⊆ (greedy_iter cascades Vl k).1.toFinset := fun x hx =>
        List.mem_toFinset.mpr (hc x (List.mem_toFinset.mp hx))
      have h2 := Finset.card_le_card h1
      rw [List.toFinset_card_of_nodup hndV] at h2
      have h3 := List.toFinset_card_le (greedy_iter cascades Vl k).1
      omega
    obtain ⟨m, hm1, hm2, hm3, hm4, hm5⟩ :=
      greedy_round_char cascades Vl (greedy_iter cascades Vl k).1 hcs hVs hs helig
    have hb : greedy_round cascades Vl (greedy_iter cascades Vl k).1
        (greedy_iter cascades Vl k).2 =
        roundState cascades (greedy_iter cascades Vl k).1 m := by
      rw [hprev]
      exact hm1
    have hiter : greedy_iter cascades Vl (k + 1) =
        (setInsert m (greedy_iter cascades Vl k).1,
         FP.val (influenceQ cascades (setInsert m (greedy_iter cascades Vl k).1))) := by
      show (setInsert (greedy_round cascades Vl (greedy_iter cascades Vl k).1
          (greedy_iter cascades Vl k).2).2.2 (greedy_iter cascades Vl k).1,
        (greedy_round cascades Vl (greedy_iter cascades Vl k).1
          (greedy_iter cascades Vl k).2).2.1) = _
      rw [hb]
      rfl
    rw [hiter]
    refine ⟨setInsert_sorted m _ hs, ?_, ?_, rfl⟩
    · intro x hx
      rcases (mem_setInsert x m _).mp hx with rfl | hx'
      · exact hm2
      · exact hsub x hx'
    · rw [setInsert_length_of_not_mem m _ hm3, hlen]

/-- One full greedy round, characterized: as long as an eligible node
remains, round `k+1` inserts the first (in ascending order) maximizer of the
candidate influence among the eligible nodes, and records its influence. -/
theorem greedy_step (cascades : List Cascade) (Vl : List ℤ) (k : ℕ)
    (hcs : cascades ≠ []) (hVs : List.Sorted (· < ·) Vl) (hk : k < Vl.length) :
    ∃ m, m ∈ Vl ∧ m ∉ (greedy_iter cascades Vl k).1 ∧
      greedy_iter cascades Vl (k + 1) =
        (setInsert m (greedy_iter cascades Vl k).1,
         FP.val (influenceQ cascades (setInsert m (greedy_iter cascades Vl k).1))) ∧
      (∀ u ∈ Vl, u ∉ (greedy_iter cascades Vl k).1 →
        influenceQ cascades (setInsert u (greedy_iter cascades Vl k).1) ≤
          influenceQ cascades (setInsert m (greedy_iter cascades Vl k).1)) ∧
      (∀ u ∈ Vl, u ∉ (greedy_iter cascades Vl k).1 → u < m →
        influenceQ cascades (setInsert u (greedy_iter cascades Vl k).1) <
          influenceQ cascades (setInsert m (greedy_iter cascades Vl k).1)) := by
  obtain ⟨hs, hsub, hlen, hprev⟩ :=
    greedy_iter_inv cascades Vl hcs hVs k (le_of_lt hk)
  have helig : ∃ u ∈ Vl, u ∉ (greedy_iter cascades Vl k).1 := by
    by_contra hc
    push_neg at hc
    have hndV : Vl.Nodup := hVs.nodup
    have h1 : Vl.toFinset ⊆ (greedy_iter cascades Vl k).1.toFinset := fun x hx =>
      List.mem_toFinset.mpr (hc x (List.mem_toFinset.mp hx))
    have h2 := Finset.card_le_card h1
    rw [List.toFinset_card_of_nodup hndV] at h2
    have h3 := List.toFinset_card_le (greedy_iter cascades Vl k).1
    omega
  obtain ⟨m, hm1, hm2, hm3, hm4, hm5⟩ :=
    greedy_round_char cascades Vl (greedy_iter cascades Vl k).1 hcs hVs hs helig
  have hb : greedy_round cascades Vl (greedy_iter cascades Vl k).1
      (greedy_iter cascades Vl k).2 =
      roundState cascades (greedy_iter cascades Vl k).1 m := by
    rw [hprev]
    exact hm1
  have hiter : greedy_iter cascades Vl (k + 1) =
      (setInsert m (greedy_iter cascades Vl k).1,
       FP.val (influenceQ cascades (setInsert m (greedy_iter cascades Vl k).1))) := by
    show (setInsert (greedy_round cascades Vl (greedy_iter cascades Vl k).1
        (greedy_iter cascades Vl k).2).2.2 (greedy_iter cascades Vl k).1,
      (greedy_round cascades Vl (greedy_iter cascades Vl k).1
        (greedy_iter cascades Vl k).2).2.1) = _
    rw [hb]
    rfl
  exact ⟨m, hm2, hm3, hiter, hm4, hm5⟩

/-! ### Claim theorems -/

/-- C4: `reachable_from` returns the number of distinct nodes reachable from
the seed set by following directed edges, seeds counted exactly once each
(also seeds absent from the adjacency mapping); the empty seed set yields 0,
and a non-empty seed set yields at least `|S|`. -/
theorem reachable_from_spec (A : Cascade) (S : List ℤ) (hnd : S.Nodup) :
    (reachable_from A S).1 = (reachSet A S).ncard ∧
    (reachable_from A ([] : List ℤ)).1 = 0 ∧
    (S ≠ [] → S.length ≤ (reachable_from A S).1) :=
  ⟨reachable_count A S hnd, by rw [reachable_from_nil], fun _ => reachable_from_ge A S hnd⟩

theorem reachable_from_spec_witness :
    (reachable_from [(1,[2,3]),(2,[4])] [1,3]).1 =
      (reachSet [(1,[2,3]),(2,[4])] [1,3]).ncard ∧
    (2 : ℕ) ≤ (reachable_from [(1,[2,3]),(2,[4])] [1,3]).1 := by
  have h := reachable_from_spec [(1,[2,3]),(2,[4])] [1,3] (by decide)
  exact ⟨h.1, h.2.2 (by decide)⟩

/-- C5 as stated is false: `reachable_from` mutates the cascade map.  On the
empty map with seed set `{1}`, popping node 1 evaluates `A[1]`, which inserts
the entry `(1, [])` into the map. -/
theorem reachable_from_mutates_counterexample :
    (reachable_from ([] : Cascade) [1]).2 ≠ ([] : Cascade) := by decide

/-- C5 (amended): `reachable_from` never reads, removes or modifies the seed
set or any existing adjacency entry; its only side effect on the cascade is
that `A[u]` appends empty adjacency entries for visited nodes that were not
keys of the map. -/
theorem reachable_from_frame (A : Cascade) (S : List ℤ) :
    ∃ ex : Cascade, (reachable_from A S).2 = A ++ ex ∧
      ∀ p ∈ ex, p.2 = ([] : List ℤ) :=
  reachable_from_snd_append A S

/-- C3 as stated is false: on the empty cascade collection the division is
not guarded and `calculate_influence` silently returns NaN (`0.0 / 0`),
which is neither `0.0` nor an explicit error. -/
theorem calculate_influence_empty_counterexample :
    calculate_influence [] [] = FP.nan ∧ FP.nan ≠ FP.val 0 :=
  ⟨rfl, by decide⟩

/-- C3 (amended): on an empty cascade collection, for every seed set, the
unguarded division `0.0 / 0` makes `calculate_influence` silently return
NaN; it neither returns `0.0` nor signals an error. -/
theorem calculate_influence_empty (S : List ℤ) :
    calculate_influence [] S = FP.nan ∧ calculate_influence [] S ≠ FP.val 0 :=
  ⟨rfl, by rw [calculate_influence_nil]; decide⟩

/-- C6: the reachable count is monotone under seed-set inclusion, and hence
`calculate_influence` on any fixed non-empty collection is monotone
non-decreasing in the candidate set (comparing the resulting doubles). -/
theorem influence_monotone (A : Cascade) (cascades : List Cascade) (S T : List ℤ)
    (hndS : S.Nodup) (hndT : T.Nodup) (hsub : ∀ x ∈ S, x ∈ T) :
    (reachable_from A S).1 ≤ (reachable_from A T).1 ∧
    (cascades ≠ [] →
      FP.leb (calculate_influence cascades S) (calculate_influence cascades T) = true) := by
  refine ⟨reachable_from_mono A S T hndS hndT hsub, fun h => ?_⟩
  rw [calculate_influence_val _ _ h, calculate_influence_val _ _ h]
  simp only [FP.leb, decide_eq_true_eq]
  exact influenceQ_mono cascades S T hndS hndT hsub

theorem influence_monotone_witness :
    (reachable_from [(1,[2])] [1]).1 ≤ (reachable_from [(1,[2])] [1,2]).1 ∧
    FP.leb (calculate_influence [[(1,[2])]] [1])
      (calculate_influence [[(1,[2])]] [1,2]) = true := by
  have h := influence_monotone [(1,[2])] [[(1,[2])]] [1] [1,2]
    (by decide) (by decide) (by decide)
  exact ⟨h.1, h.2 (by decide)⟩

/-- C7: on a non-empty collection, `calculate_influence` returns the sum of
the per-cascade reachable counts divided by the number of cascades; for a
two-cascade collection with counts r1 and r2 it returns exactly (r1+r2)/2. -/
theorem calculate_influence_avg (cascades : List Cascade) (S : List ℤ)
    (A1 A2 : Cascade) (h : cascades ≠ []) :
    calculate_influence cascades S =
      FP.val ((cascades.map (fun A => ((reachable_from A S).1 : ℚ))).sum /
        cascades.length) ∧
    calculate_influence [A1, A2] S =
      FP.val ((((reachable_from A1 S).1 : ℚ) + ((reachable_from A2 S).1 : ℚ)) / 2) := by
  constructor
  · rw [calculate_influence_val _ _ h]
    unfold influenceQ
    rw [calc_loop_fst]
  · rw [calculate_influence_val _ _ (by simp)]
    unfold influenceQ
    rw [calc_loop_fst]
    norm_num

theorem calculate_influence_avg_witness :
    calculate_influence [[(1,[2])]] [1] =
      FP.val ((([[(1,[2])]] : List Cascade).map
        (fun A => ((reachable_from A [1]).1 : ℚ))).sum /
        ([[(1,[2])]] : List Cascade).length) :=
  (calculate_influence_avg [[(1,[2])]] [1] [] [] (by decide)).1

/-- C10: the loop of `calculate_influence` iterates over by-value copies of
the stored cascades, so the stored collection is returned unchanged — even
though `reachable_from` does insert entries into the copy it traverses. -/
theorem calculate_influence_frame (cascades : List Cascade) (S : List ℤ) :
    (calc_loop cascades S).2 = cascades ∧
    (reachable_from [(5,[7])] [5]).2 ≠ [(5,[7])] :=
  ⟨calc_loop_snd cascades S, by decide⟩

/-- C8: the BFS terminates on every finite cascade, cycles included — any
fuel of at least the static bound yields exactly the count `reachable_from`
returns — each node is counted at most once (the count is the cardinality of
a set), and the cyclic cascade 1→2, 2→3, 3→1 from seed {1} yields 3. -/
theorem bfs_terminates (A : Cascade) (S : List ℤ) (hnd : S.Nodup) :
    (∀ fuel, bfsFuel A S ≤ fuel →
      (bfsLoop fuel A S S.toFinset S.length).1 = (reachable_from A S).1) ∧
    (reachable_from A S).1 = (reachSet A S).ncard ∧
    (reachable_from [(1,[2]),(2,[3]),(3,[1])] [1]).1 = 3 := by
  refine ⟨?_, reachable_count A S hnd, by decide⟩
  intro fuel hf
  rw [reachable_count A S hnd]
  exact bfsLoop_correct A S fuel A S S.toFinset S.length (bfsInv_init A S hnd)
    Finset.subset_union_left (le_trans (bfsFuel_sufficient A S) hf)

theorem bfs_terminates_witness :
    (bfsLoop (bfsFuel [(1,[2]),(2,[3]),(3,[1])] [1] + 5) [(1,[2]),(2,[3]),(3,[1])]
        [1] ([1] : List ℤ).toFinset ([1] : List ℤ).length).1 =
      (reachable_from [(1,[2]),(2,[3]),(3,[1])] [1]).1 ∧
    (reachable_from [(1,[2]),(2,[3]),(3,[1])] [1]).1 = 3 := by
  have h := bfs_terminates [(1,[2]),(2,[3]),(3,[1])] [1] (by decide)
  exact ⟨h.1 _ (by decide), h.2.2⟩

/-- C1: every greedy round inserts the eligible node — scanned in ascending
identifier order — whose candidate set maximizes `calculate_influence`, the
strict comparison making the first maximizer win all ties; and Scenario A:
a single cascade with edges (1,2),(1,3),(2,4) and K = 1 selects node 1 with
final influence 4.0. -/
theorem greedy_selects_first_argmax (cascades : List Cascade) (Vl : List ℤ) (k : ℕ)
    (hcs : cascades ≠ []) (hVs : List.Sorted (· < ·) Vl) (hk : k < Vl.length) :
    (∃ n, n ∈ Vl ∧ n ∉ (greedy_iter cascades Vl k).1 ∧
      (greedy_iter cascades Vl (k+1)).1 = setInsert n (greedy_iter cascades Vl k).1 ∧
      (greedy_iter cascades Vl (k+1)).2 =
        calculate_influence cascades (setInsert n (greedy_iter cascades Vl k).1) ∧
      (∀ u ∈ Vl, u ∉ (greedy_iter cascades Vl k).1 →
        influenceQ cascades (setInsert u (greedy_iter cascades Vl k).1) ≤
          influenceQ cascades (setInsert n (greedy_iter cascades Vl k).1)) ∧
      (∀ u ∈ Vl, u ∉ (greedy_iter cascades Vl k).1 → u < n →
        influenceQ cascades (setInsert u (greedy_iter cascades Vl k).1) <
          influenceQ cascades (setInsert n (greedy_iter cascades Vl k).1))) ∧
    select_seeds [[(1,[2,3]),(2,[4])]] [1,2,3,4] 1 = ([1], FP.val 4) := by
  constructor
  · obtain ⟨m, hm1, hm2, hm3, hm4, hm5⟩ := greedy_step cascades Vl k hcs hVs hk
    refine ⟨m, hm1, hm2, by rw [hm3], ?_, hm4, hm5⟩
    rw [hm3, calculate_influence_val _ _ hcs]
  · norm_num [select_seeds, greedy_iter, greedy_round, roundStep, calculate_influence,
      calc_loop, reachable_from, bfsFuel, totalAdj, bfsLoop, mapIndex, lookupA,
      processNeighbors, setInsert, FP.sub, FP.gtb]

theorem greedy_selects_first_argmax_witness :
    (∃ n, n ∈ ([1,2] : List ℤ) ∧ n ∉ (greedy_iter [[(1,[2])]] [1,2] 0).1 ∧
      (greedy_iter [[(1,[2])]] [1,2] 1).1 =
        setInsert n (greedy_iter [[(1,[2])]] [1,2] 0).1 ∧
      (greedy_iter [[(1,[2])]] [1,2] 1).2 =
        calculate_influence [[(1,[2])]]
          (setInsert n (greedy_iter [[(1,[2])]] [1,2] 0).1) ∧
      (∀ u ∈ ([1,2] : List ℤ), u ∉ (greedy_iter [[(1,[2])]] [1,2] 0).1 →
        influenceQ [[(1,[2])]] (setInsert u (greedy_iter [[(1,[2])]] [1,2] 0).1) ≤
          influenceQ [[(1,[2])]] (setInsert n (greedy_iter [[(1,[2])]] [1,2] 0).1)) ∧
      (∀ u ∈ ([1,2] : List ℤ), u ∉ (greedy_iter [[(1,[2])]] [1,2] 0).1 → u < n →
        influenceQ [[(1,[2])]] (setInsert u (greedy_iter [[(1,[2])]] [1,2] 0).1) <
          influenceQ [[(1,[2])]] (setInsert n (greedy_iter [[(1,[2])]] [1,2] 0).1))) ∧
    select_seeds [[(1,[2,3]),(2,[4])]] [1,2,3,4] 1 = ([1], FP.val 4) :=
  greedy_selects_first_argmax [[(1,[2])]] [1,2] 0 (by decide) (by decide) (by decide)

/-- C2 fails on the code: with universe {1, 2} and K = 5 the greedy loop
does not stop after exhausting the universe.  Each of rounds 3, 4 and 5
finds no eligible node, leaves the round state at its sentinel
initialization, inserts sentinel node −1 into S and records influence −1.0;
the selector returns the seed set {−1, 1, 2} of size 3 with influence −1.0
instead of {1, 2} of size 2 with a non-negative influence. -/
theorem exhausted_universe_inserts_sentinel :
    select_seeds [[(1,[2])]] [1,2] 5 = ([-1,1,2], FP.val (-1)) := by
  norm_num [select_seeds, greedy_iter, greedy_round, roundStep, calculate_influence,
    calc_loop, reachable_from, bfsFuel, totalAdj, bfsLoop, mapIndex, lookupA,
    processNeighbors, setInsert, FP.sub, FP.gtb]

/-- C9 as stated is false: with universe {1, 2}, one cascade {1→2} and
K = 3, the influence recorded at the end of round 2 is 2.0 but round 3,
having no eligible node, records the sentinel −1.0 — a strict decrease. -/
theorem greedy_influence_decreases_counterexample :
    (greedy_iter [[(1,[2])]] [1,2] 2).2 = FP.val 2 ∧
    (greedy_iter [[(1,[2])]] [1,2] 3).2 = FP.val (-1) ∧
    FP.leb (greedy_iter [[(1,[2])]] [1,2] 2).2
      (greedy_iter [[(1,[2])]] [1,2] 3).2 = false := by
  norm_num [greedy_iter, greedy_round, roundStep, calculate_influence, calc_loop,
    reachable_from, bfsFuel, totalAdj, bfsLoop, mapIndex, lookupA, processNeighbors,
    setInsert, FP.sub, FP.gtb, FP.leb]

/-- C9 (amended): as long as the round still has an eligible node (round
index below |V|), the recorded previous_influence never decreases from one
round to the next. -/
theorem greedy_monotone_rounds (cascades : List Cascade) (Vl : List ℤ) (k : ℕ)
    (hcs : cascades ≠ []) (hVs : List.Sorted (· < ·) Vl) (hk : k < Vl.length) :
    FP.leb (greedy_iter cascades Vl k).2 (greedy_iter cascades Vl (k+1)).2 = true := by
  obtain ⟨hs, hsub, hlen, hprev⟩ := greedy_iter_inv cascades Vl hcs hVs k (le_of_lt hk)
  obtain ⟨m, hm1, hm2, hm3, hm4, hm5⟩ := greedy_step cascades Vl k hcs hVs hk
  have h2 : (greedy_iter cascades Vl (k+1)).2 =
      FP.val (influenceQ cascades (setInsert m (greedy_iter cascades Vl k).1)) := by
    rw [hm3]
  rw [hprev, h2]
  simp only [FP.leb, decide_eq_true_eq]
  exact influenceQ_mono cascades _ _ hs.nodup (setInsert_sorted m _ hs).nodup
    (subset_setInsert m _)

theorem greedy_monotone_rounds_witness :
    FP.leb (greedy_iter [[(1,[2])]] [1,2] 0).2
      (greedy_iter [[(1,[2])]] [1,2] 1).2 = true :=
  greedy_monotone_rounds [[(1,[2])]] [1,2] 0 (by decide) (by decide) (by decide)

end InflMax
